/-
Formal model of the bengali-asr data-preparation pipeline
(src/data/preprocess.py and src/data/augment.py).

The Python functions are embedded as Lean definitions:
* exceptions become `Except String`;
* float arithmetic is idealized as exact rationals (`ℚ`) where the code is
  purely algebraic, as reals (`ℝ`) where square roots / powers of 10 appear,
  and as an explicit IEEE-style type `NF` (rationals plus infinities and NaN)
  where a claim is about non-finite propagation;
* the two third-party random sources (numpy's seeded generator inside
  sklearn's train_test_split, and Python's process-global `random` module)
  are modelled as deterministic seeded shuffles driven by a linear
  congruential stream; every theorem uses only that such a shuffle is a
  deterministic permutation of its input.
-/
import Mathlib

namespace BengaliASR

/-- One manifest row: `path, transcript, speaker, locale`
(the TSV schema written by preprocess.py). -/
structure Record where
  path : String
  transcript : String
  speaker : String
  locale : String
deriving DecidableEq

/-! ### Grouping by speaker (preprocess.py 166-170)

`speaker_to_samples` is a `defaultdict(list)`: iterating over the input data,
each sample is appended to the bucket of its speaker.  A Python dict keeps
keys in first-insertion order, so the dict is modelled as an association list
whose keys appear in order of first occurrence.  (The Python lookup
`sample.get("speaker", "unknown")` always finds the key, since every Record
has a `speaker` field; the `"unknown"` default never fires in this model.) -/

/-- Append `r` to the bucket of key `s`, creating the bucket at the end when
the key is new (Python dict insertion-order semantics). -/
def insertGroup : List (String × List Record) → String → Record → List (String × List Record)
  | [], s, r => [(s, [r])]
  | (k, rs) :: t, s, r =>
    if k = s then (k, rs ++ [r]) :: t else (k, rs) :: insertGroup t s r

/-- The `speaker_to_samples` dict built by the loop in split_by_speaker. -/
def groupBySpeaker (data : List Record) : List (String × List Record) :=
  data.foldl (fun acc r => insertGroup acc r.speaker r) []

/-- Dict lookup (`speaker_to_samples[speaker]`); the key is always present
when it comes from the dict's own key list. -/
def lookupGroup : List (String × List Record) → String → List Record
  | [], _ => []
  | (k, rs) :: t, s => if k = s then rs else lookupGroup t s

/-- `list(speaker_to_samples.keys())` (preprocess.py 172). -/
def groupKeys (g : List (String × List Record)) : List String :=
  g.map Prod.fst

/-! ### Seeded shuffle model for numpy / sklearn -/

/-- One step of a linear congruential stream, standing in for the
Mersenne-Twister stream of numpy / Python's random module.  The theorems
below use only that the stream is a deterministic function of the seed. -/
def lcg (s : Nat) : Nat :=
  (1103515245 * s + 12345) % 2147483648

/-- Fisher-Yates-style seeded shuffle: repeatedly pick the element indexed by
the current stream value and recurse on the rest.  The fuel argument equals
the list length at the top call; the fuel-exhausted branch is unreachable. -/
def shuffleFuel [DecidableEq α] : Nat → Nat → List α → List α
  | _, _, [] => []
  | 0, _, l => l
  | fuel + 1, s, x :: xs =>
    let y := (x :: xs).get ⟨s % (x :: xs).length, Nat.mod_lt s (Nat.succ_pos xs.length)⟩
    y :: shuffleFuel fuel (lcg s) ((x :: xs).erase y)

/-- Model of `numpy.random.RandomState(seed).permutation` as used by
sklearn's train_test_split: a deterministic seeded permutation of the input. -/
def permutationModel [DecidableEq α] (seed : Nat) (l : List α) : List α :=
  shuffleFuel l.length (lcg seed) l

/-! ### sklearn.model_selection.train_test_split

Modelled from sklearn's `_validate_shuffle_split` / `ShuffleSplit` (the
third-party function preprocess.py calls with a float `test_size` and
`train_size=None`): a float `test_size` outside the open interval (0, 1) is
rejected; otherwise `n_test = ceil(test_size * n)`, `n_train = n - n_test`,
and an empty train set is rejected.  The seeded permutation is split with the
first `n_test` positions as the test set and the rest as the train set. -/

def validate_shuffle_split (n : Nat) (test_size : ℚ) : Except String (Nat × Nat) :=
  if test_size ≤ 0 ∨ 1 ≤ test_size then
    .error "test_size should be either positive and smaller than the number of samples or a float in the (0, 1) range"
  else
    let n_test := (⌈test_size * (n : ℚ)⌉).toNat
    let n_train := n - n_test
    if n_train = 0 then
      .error "the resulting train set will be empty"
    else
      .ok (n_train, n_test)

/-- `train_test_split(l, test_size=ts, random_state=seed)`: returns the pair
(train, test). -/
def train_test_split [DecidableEq α] (seed : Nat) (test_size : ℚ) (l : List α) :
    Except String (List α × List α) :=
  match validate_shuffle_split l.length test_size with
  | .error e => .error e
  | .ok (n_train, n_test) =>
    let p := permutationModel seed l
    .ok ((p.drop n_test).take n_train, p.take n_test)

/-! ### DatasetSplitter (preprocess.py 134-202) -/

structure DatasetSplitter where
  train_ratio : ℚ
  valid_ratio : ℚ
  test_ratio : ℚ
  random_seed : Nat
deriving DecidableEq

/-- `DatasetSplitter.__init__` (preprocess.py 137-154): asserts that the three
ratios sum to 1.0 within 1e-6 and stores them; the AssertionError raised on a
violated assert is modelled as `Except.error`.  Nothing else happens before
the check: a failed construction produces no splitter and no partition. -/
def DatasetSplitter.make (train_ratio valid_ratio test_ratio : ℚ) (random_seed : Nat) :
    Except String DatasetSplitter :=
  if |train_ratio + valid_ratio + test_ratio - 1| < 1 / 1000000 then
    .ok ⟨train_ratio, valid_ratio, test_ratio, random_seed⟩
  else
    .error "Ratios must sum to 1.0"

/-- `DatasetSplitter.split_by_speaker` (preprocess.py 156-202): group records
by speaker, split the list of speaker ids twice with train_test_split (both
times with the stored seed), then expand each speaker-id list back into its
records in order.  Exceptions escaping the sklearn calls are modelled by
`Except` propagation. -/
def DatasetSplitter.split_by_speaker (sp : DatasetSplitter) (data : List Record) :
    Except String (List Record × List Record × List Record) :=
  let groups := groupBySpeaker data
  let speakers := groupKeys groups
  match train_test_split sp.random_seed (sp.valid_ratio + sp.test_ratio) speakers with
  | .error e => .error e
  | .ok (train_speakers, temp_speakers) =>
    match train_test_split sp.random_seed
        (sp.test_ratio / (sp.valid_ratio + sp.test_ratio)) temp_speakers with
    | .error e => .error e
    | .ok (valid_speakers, test_speakers) =>
      .ok (train_speakers.flatMap (lookupGroup groups),
           valid_speakers.flatMap (lookupGroup groups),
           test_speakers.flatMap (lookupGroup groups))

/-! ### Generic audio-buffer arithmetic

Mono audio buffers are lists of samples over a linear ordered field `α`
(`ℚ` for the purely algebraic claims, `ℝ` where `sqrt` / `10 ** x` appear).
`npMax` models `np.max`, which raises `ValueError` on an empty array. -/

/-- `np.max` over a list: reduction without an initial element; raises on an
empty array. -/
def npMax [LinearOrder α] : List α → Except String α
  | [] => .error "zero-size array to reduction operation maximum which has no identity"
  | x :: xs => .ok (xs.foldl max x)

/-- The peak `np.abs(l).max()` of a buffer, as a total function with value 0
on the empty buffer (used only to state theorems; the executable model is
`npMax`, which errors on an empty buffer exactly as numpy does). -/
def peakAbs [LinearOrderedField α] : List α → α
  | [] => 0
  | x :: xs => (xs.map (fun a => |a|)).foldl max |x|

/-- `np.mean`: the sum divided by the length.  On the empty list this model
yields `0 / 0 = 0` (numpy warns and yields NaN there; the theorems that touch
the empty case go through the `NF` model instead). -/
def mean [DivisionRing α] (l : List α) : α :=
  l.sum / (l.length : α)

/-- `np.mean(l ** 2)`: mean square, the power of a buffer. -/
def meanSq [DivisionRing α] (l : List α) : α :=
  mean (l.map (fun x => x * x))

/-- Noise tiling of add_background_noise (augment.py 90-97): when the noise
is shorter than the target, repeat it `ceil(target / len)` whole times; then
truncate to exactly `target` samples.  (The `ZeroDivisionError` raised when
an empty noise buffer meets a nonempty signal is handled by the caller.) -/
def tileTrimList (target : Nat) (noise : List α) : List α :=
  if noise.length < target then
    (List.flatten (List.replicate ((target + noise.length - 1) / noise.length) noise)).take target
  else
    noise.take target

/-- `AudioPreprocessor.normalize_audio` (preprocess.py 104-118): peak
normalization to `target_level` (callers use the default 0.95 = 19/20);
buffers whose peak is not positive are returned unchanged. -/
def normalize_audio [LinearOrderedField α] (audio : List α) (target_level : α) :
    Except String (List α) :=
  match npMax (audio.map (fun a => |a|)) with
  | .error e => .error e
  | .ok peak =>
    if 0 < peak then .ok (audio.map (fun x => x * (target_level / peak)))
    else .ok audio

/-- `AudioAugmenter.volume_perturbation` (augment.py 115-131): multiply by
`10 ** (gain_db / 20)` and re-peak-normalize to 0.95 only when the scaled
peak exceeds 1.0.  Stated over `ℝ` since the gain factor is transcendental. -/
noncomputable def volume_perturbation (audio : List ℝ) (gain_db : ℝ) :
    Except String (List ℝ) :=
  let gain_linear : ℝ := (10 : ℝ) ^ (gain_db / 20)
  let augmented := audio.map (fun x => x * gain_linear)
  match npMax (augmented.map (fun a => |a|)) with
  | .error e => .error e
  | .ok peak =>
    if 1 < peak then .ok (augmented.map (fun x => x / peak * (19 / 20)))
    else .ok augmented

/-- The noise scaling factor of add_background_noise (augment.py 99-105):
`sqrt(signal_power / (noise_power * 10 ** (snr_db / 10)))`, where
`noise_power` is the power of the already tiled-and-truncated noise. -/
noncomputable def noiseScaleOf (audio noise_t : List ℝ) (snr_db : ℝ) : ℝ :=
  Real.sqrt (meanSq audio / (meanSq noise_t * (10 : ℝ) ^ (snr_db / 10)))

/-- `AudioAugmenter.add_background_noise` (augment.py 77-113) over ideal
reals: tile/trim the noise to the signal length, scale it for the requested
SNR, add, and peak-normalize the mixture toward 0.95 (the code divides by the
mixture peak with no zero/empty guard; `npMax` reproduces the empty-array
ValueError, and the non-finite zero-power path is treated separately in the
`NF` model below). -/
noncomputable def add_background_noise (audio noise : List ℝ) (snr_db : ℝ) :
    Except String (List ℝ) :=
  if noise.length = 0 ∧ noise.length < audio.length then
    .error "ZeroDivisionError: division by zero"
  else
    let noise_t := tileTrimList audio.length noise
    let noise_scale := noiseScaleOf audio noise_t snr_db
    let augmented := List.zipWith (· + ·) audio (noise_t.map (fun x => noise_scale * x))
    match npMax (augmented.map (fun a => |a|)) with
    | .error e => .error e
    | .ok peak => .ok (augmented.map (fun x => x / peak * (19 / 20)))

/-! ### IEEE-style float model for non-finite propagation

numpy float64 arithmetic restricted to what the degenerate-noise path of
add_background_noise exercises: exact rationals extended with the two
infinities and NaN.  Division by zero yields a signed infinity (NaN for 0/0),
infinity times zero yields NaN, and NaN propagates through every operation,
exactly as in IEEE 754 (ℚ has no signed zero; none arises on this path). -/

inductive NF where
  | fin (q : ℚ)
  | pinf
  | ninf
  | nan
deriving DecidableEq

namespace NF

def add : NF → NF → NF
  | nan, _ => nan
  | _, nan => nan
  | fin a, fin b => fin (a + b)
  | pinf, ninf => nan
  | ninf, pinf => nan
  | pinf, _ => pinf
  | _, pinf => pinf
  | ninf, _ => ninf
  | _, ninf => ninf

def mul : NF → NF → NF
  | nan, _ => nan
  | _, nan => nan
  | fin a, fin b => fin (a * b)
  | pinf, pinf => pinf
  | pinf, ninf => ninf
  | ninf, pinf => ninf
  | ninf, ninf => pinf
  | pinf, fin b => if b = 0 then nan else if 0 < b then pinf else ninf
  | fin a, pinf => if a = 0 then nan else if 0 < a then pinf else ninf
  | ninf, fin b => if b = 0 then nan else if 0 < b then ninf else pinf
  | fin a, ninf => if a = 0 then nan else if 0 < a then ninf else pinf

def div : NF → NF → NF
  | nan, _ => nan
  | _, nan => nan
  | fin a, fin b =>
    if b = 0 then (if a = 0 then nan else if 0 < a then pinf else ninf)
    else fin (a / b)
  | fin _, pinf => fin 0
  | fin _, ninf => fin 0
  | pinf, fin b => if 0 ≤ b then pinf else ninf
  | ninf, fin b => if 0 ≤ b then ninf else pinf
  | pinf, pinf => nan
  | pinf, ninf => nan
  | ninf, pinf => nan
  | ninf, ninf => nan

/-- `np.sqrt`: NaN on negative or NaN input, infinity on +inf.  On finite
nonnegative rationals `Rat.sqrt` is exact for perfect squares; the claims
evaluated through `NF` only ever take the square root of 0 or of a
non-finite value, where this model is exact. -/
def sqrt : NF → NF
  | nan => nan
  | ninf => nan
  | pinf => pinf
  | fin q => if q < 0 then nan else fin (Rat.sqrt q)

def abs : NF → NF
  | nan => nan
  | pinf => pinf
  | ninf => pinf
  | fin q => fin |q|

/-- `np.maximum`-style reduction step: NaN propagates. -/
def maxOp : NF → NF → NF
  | nan, _ => nan
  | _, nan => nan
  | pinf, _ => pinf
  | _, pinf => pinf
  | ninf, b => b
  | a, ninf => a
  | fin a, fin b => fin (max a b)

def sum (l : List NF) : NF :=
  l.foldl add (fin 0)

/-- `np.mean` in the NF model: sum over count; the empty mean is `0 / 0`,
i.e. NaN, exactly as numpy yields. -/
def meanNF (l : List NF) : NF :=
  div (sum l) (fin (l.length : ℚ))

def meanSqNF (l : List NF) : NF :=
  meanNF (l.map (fun x => mul x x))

/-- `np.max` in the NF model (ValueError on an empty array). -/
def npMaxNF : List NF → Except String NF
  | [] => .error "zero-size array to reduction operation maximum which has no identity"
  | x :: xs => .ok (xs.foldl maxOp x)

end NF

/-- `AudioAugmenter.add_background_noise` in the NF model, exercising the
numpy float semantics of the zero-noise-power path.  `snr_linear` stands for
`10 ** (snr_db / 10)`, a strictly positive factor that is transcendental for
the snr values the code uses and is therefore passed as a parameter; the
degenerate path multiplies it by zero, so its exact value is irrelevant. -/
def add_background_noise_NF (audio noise : List NF) (snr_linear : NF) :
    Except String (List NF) :=
  if noise.length = 0 ∧ noise.length < audio.length then
    .error "ZeroDivisionError: division by zero"
  else
    let noise_t := tileTrimList audio.length noise
    let signal_power := NF.meanSqNF audio
    let noise_power := NF.meanSqNF noise_t
    let noise_scale := NF.sqrt (NF.div signal_power (NF.mul noise_power snr_linear))
    let augmented := List.zipWith NF.add audio (noise_t.map (fun x => NF.mul noise_scale x))
    match NF.npMaxNF (augmented.map NF.abs) with
    | .error e => .error e
    | .ok peak => .ok (augmented.map (fun x => NF.mul (NF.div x peak) (NF.fin (19 / 20))))

/-! ### AudioAugmenter.augment_audio (augment.py 133-183)

The planning structure of augment_audio: which output files it writes and
under which augmentation tag, given the requested technique list.  Audio
contents and the filesystem are outside the model; the function below is the
list `augmented_files` returned to the caller, in construction order.  The
Python name fragments come from f-strings over the fixed parameter catalogue
(`str(0.9) = "0.9"` etc.). -/
def augment_audio_files (base_name : String) (techniques : List String) :
    List (String × String) :=
  [(base_name ++ "_original.wav", "original")]
  ++ (if "speed" ∈ techniques then
        [(base_name ++ "_speed0.9.wav", "speed_0.9"),
         (base_name ++ "_speed1.1.wav", "speed_1.1")]
      else [])
  ++ (if "noise" ∈ techniques then
        [(base_name ++ "_noise0.003.wav", "noise_0.003"),
         (base_name ++ "_noise0.007.wav", "noise_0.007")]
      else [])
  ++ (if "volume" ∈ techniques then
        [(base_name ++ "_vol-3db.wav", "volume_-3db"),
         (base_name ++ "_vol3db.wav", "volume_3db")]
      else [])

/-! ### augment_dataset sample selection (augment.py 210-211) -/

/-- The sample-selection step of augment_dataset:
`num_to_augment = int(len(samples) * augment_ratio)` followed by
`samples_to_augment = random.sample(samples, num_to_augment)`.
`random.sample` draws from the process-global random-module generator, which
augment_dataset never seeds: `AudioAugmenter.__init__` seeds numpy's global
generator and builds a seeded `self.rng` that is never used, neither of
which affects the `random` module.  That ambient generator state is
therefore an explicit `global_state` argument here, and the selection is
modelled as the seeded shuffle truncated to the first `num_to_augment`
elements (selection without replacement). -/
def samples_to_augment (global_state : Nat) (samples : List Record)
    (augment_ratio : ℚ) : List Record :=
  let num_to_augment := (⌊(samples.length : ℚ) * augment_ratio⌋).toNat
  (shuffleFuel samples.length global_state samples).take num_to_augment

/-! ### Duration estimation in preprocess.py main (lines 437-442, 451-459)

`total_duration = sum(get_duration(p) for p in train_data[:100]) * (len(train_data) / 100)`
and `stats["estimated_hours"] = total_duration / 3600`.  File I/O is outside
the model, so the function takes the per-record durations of each split in
order; the valid and test durations are parameters of the surrounding stats
computation but are never read. -/
def estimated_total_duration (train_durations _valid_durations _test_durations : List ℚ) : ℚ :=
  ((train_durations.take 100).sum) * ((train_durations.length : ℚ) / 100)

/-- The `estimated_hours` field of the stats artifact. -/
def estimated_hours (train_durations valid_durations test_durations : List ℚ) : ℚ :=
  estimated_total_duration train_durations valid_durations test_durations / 3600

/-! ### Concrete records used by witnesses and counterexamples -/

def recA1 : Record := ⟨"a1.wav", "t1", "A", "bn"⟩
def recA2 : Record := ⟨"a2.wav", "t2", "A", "bn"⟩
def recB : Record := ⟨"b1.wav", "t3", "B", "bn"⟩

/-- Six one-record speakers for the successful-split witness. -/
def sixRecords : List Record :=
  [⟨"p1.wav", "u1", "s1", "bn"⟩, ⟨"p2.wav", "u2", "s2", "bn"⟩,
   ⟨"p3.wav", "u3", "s3", "bn"⟩, ⟨"p4.wav", "u4", "s4", "bn"⟩,
   ⟨"p5.wav", "u5", "s5", "bn"⟩, ⟨"p6.wav", "u6", "s6", "bn"⟩]

/-! ## Lemmas about the grouping dict -/

theorem lookupGroup_insertGroup (acc : List (String × List Record)) (s : String)
    (r : Record) (s' : String) :
    lookupGroup (insertGroup acc s r) s' =
      if s = s' then lookupGroup acc s' ++ [r] else lookupGroup acc s' := by
  induction acc with
  | nil =>
    by_cases h : s = s' <;> simp [insertGroup, lookupGroup, h]
  | cons kv t ih =>
    obtain ⟨k, rs⟩ := kv
    by_cases hk : k = s
    · subst hk
      by_cases h : k = s' <;> simp [insertGroup, lookupGroup, h]
    · by_cases h : k = s'
      · subst h
        have hs : ¬ s = k := fun hss => hk hss.symm
        simp [insertGroup, lookupGroup, hk, hs]
      · simp [insertGroup, lookupGroup, hk, h, ih]

theorem lookupGroup_foldl (d : List Record) :
    ∀ (acc : List (String × List Record)) (s : String),
      lookupGroup (d.foldl (fun a r => insertGroup a r.speaker r) acc) s =
        lookupGroup acc s ++ d.filter (fun r => r.speaker = s) := by
  induction d with
  | nil => intro acc s; simp
  | cons r d ih =>
    intro acc s
    simp only [List.foldl_cons, ih, lookupGroup_insertGroup]
    by_cases h : r.speaker = s
    · simp [h, List.filter_cons]
    · simp [h, List.filter_cons]

/-- The dict bucket of a speaker is exactly the input's subsequence with that
speaker, in input order. -/
theorem lookupGroup_groupBySpeaker (d : List Record) (s : String) :
    lookupGroup (groupBySpeaker d) s = d.filter (fun r => r.speaker = s) := by
  simpa [groupBySpeaker, lookupGroup] using lookupGroup_foldl d [] s

theorem groupKeys_insertGroup (acc : List (String × List Record)) (s : String) (r : Record) :
    groupKeys (insertGroup acc s r) =
      if s ∈ groupKeys acc then groupKeys acc else groupKeys acc ++ [s] := by
  induction acc with
  | nil => simp [insertGroup, groupKeys]
  | cons kv t ih =>
    obtain ⟨k, rs⟩ := kv
    by_cases hk : k = s
    · subst hk
      simp [insertGroup, groupKeys]
    · have : ¬ s = k := fun h => hk h.symm
      simp only [insertGroup, if_neg hk, groupKeys, List.map_cons] at ih ⊢
      rw [ih]
      by_cases hm : s ∈ List.map Prod.fst t <;> simp [hm, this]

theorem groupKeys_foldl_nodup (d : List Record) :
    ∀ acc : List (String × List Record), (groupKeys acc).Nodup →
      (groupKeys (d.foldl (fun a r => insertGroup a r.speaker r) acc)).Nodup := by
  induction d with
  | nil => intro acc h; simpa using h
  | cons r d ih =>
    intro acc h
    simp only [List.foldl_cons]
    refine ih _ ?_
    rw [groupKeys_insertGroup]
    by_cases hm : r.speaker ∈ groupKeys acc
    · simpa [hm] using h
    · rw [if_neg hm, List.nodup_append]
      exact ⟨h, List.nodup_singleton _, by simpa using hm⟩

/-- The dict's key list has no duplicates. -/
theorem groupKeys_nodup (d : List Record) : (groupKeys (groupBySpeaker d)).Nodup :=
  groupKeys_foldl_nodup d [] (by simp [groupKeys])

theorem mem_groupKeys_foldl (d : List Record) :
    ∀ (acc : List (String × List Record)) (s : String),
      s ∈ groupKeys (d.foldl (fun a r => insertGroup a r.speaker r) acc) ↔
        s ∈ groupKeys acc ∨ s ∈ d.map Record.speaker := by
  induction d with
  | nil => intro acc s; simp
  | cons r d ih =>
    intro acc s
    simp only [List.foldl_cons, ih, groupKeys_insertGroup]
    by_cases hm : r.speaker ∈ groupKeys acc
    · by_cases hs : s = r.speaker
      · subst hs; simp [hm]
      · simp [hm, hs]
    · by_cases hs : s = r.speaker
      · subst hs; simp [hm]
      · simp [hm, hs]

/-- The dict's keys are exactly the speakers occurring in the input. -/
theorem mem_groupKeys (d : List Record) (s : String) :
    s ∈ groupKeys (groupBySpeaker d) ↔ s ∈ d.map Record.speaker := by
  simpa [groupBySpeaker, groupKeys] using mem_groupKeys_foldl d [] s

/-- Every record of a looked-up bucket carries the looked-up speaker. -/
theorem speaker_of_mem_lookupGroup {d : List Record} {s : String} {r : Record}
    (h : r ∈ lookupGroup (groupBySpeaker d) s) : r.speaker = s := by
  rw [lookupGroup_groupBySpeaker] at h
  exact of_decide_eq_true (List.mem_filter.mp h).2

/-! ## The seeded shuffle is a permutation -/

theorem shuffleFuel_perm [DecidableEq α] (fuel : Nat) :
    ∀ (s : Nat) (l : List α), List.Perm (shuffleFuel fuel s l) l := by
  induction fuel with
  | zero => intro s l; cases l <;> simp [shuffleFuel]
  | succ n ih =>
    intro s l
    cases l with
    | nil => simp [shuffleFuel]
    | cons x xs =>
      rw [shuffleFuel]
      exact ((ih _ _).cons _).trans (List.perm_cons_erase (List.get_mem _ _ _)).symm

theorem permutationModel_perm [DecidableEq α] (seed : Nat) (l : List α) :
    List.Perm (permutationModel seed l) l :=
  shuffleFuel_perm l.length (lcg seed) l

/-- A successful train_test_split returns two lists that together are a
permutation of the input (test positions first). -/
theorem train_test_split_partition [DecidableEq α] {seed : Nat} {test_size : ℚ}
    {l train test : List α} (h : train_test_split seed test_size l = .ok (train, test)) :
    List.Perm (test ++ train) l := by
  unfold train_test_split at h
  cases hv : validate_shuffle_split l.length test_size with
  | error e => rw [hv] at h; exact absurd h (by simp)
  | ok p =>
    obtain ⟨n_train, n_test⟩ := p
    rw [hv] at h
    simp only [Except.ok.injEq, Prod.mk.injEq] at h
    obtain ⟨htr, hte⟩ := h
    have hperm := permutationModel_perm seed l
    have hlen : (permutationModel seed l).length = l.length := hperm.length_eq
    -- the validator returns n_train = l.length - n_test, nonzero
    have hval : n_train = l.length - n_test := by
      unfold validate_shuffle_split at hv
      by_cases hc : test_size ≤ 0 ∨ 1 ≤ test_size
      · rw [if_pos hc] at hv; exact absurd hv (by simp)
      · rw [if_neg hc] at hv
        by_cases hz : l.length - (⌈test_size * (l.length : ℚ)⌉).toNat = 0
        · rw [if_pos hz] at hv; exact absurd hv (by simp)
        · rw [if_neg hz] at hv
          simp only [Except.ok.injEq, Prod.mk.injEq] at hv
          omega
    have hdroplen : ((permutationModel seed l).drop n_test).length = n_train := by
      simp [hlen, hval]
    have htr' : train = (permutationModel seed l).drop n_test := by
      rw [← htr, List.take_of_length_le (le_of_eq hdroplen)]
    rw [htr', ← hte, List.take_append_drop]
    exact hperm

/-! ## Expanding speaker lists back into record lists -/

theorem count_lookupGroup (d : List Record) (s : String) (r : Record) :
    (lookupGroup (groupBySpeaker d) s).count r =
      if r.speaker = s then d.count r else 0 := by
  rw [lookupGroup_groupBySpeaker]
  by_cases h : r.speaker = s
  · rw [if_pos h]
    exact List.count_filter (by simpa using h)
  · rw [if_neg h, List.count_eq_zero]
    intro hmem
    exact h (of_decide_eq_true (List.mem_filter.mp hmem).2)

theorem count_flatMap_lookup (d : List Record) :
    ∀ ks : List String, ks.Nodup → ∀ r : Record,
      (ks.flatMap (lookupGroup (groupBySpeaker d))).count r =
        if r.speaker ∈ ks then d.count r else 0 := by
  intro ks
  induction ks with
  | nil => intro _ r; simp
  | cons k ks ih =>
    intro hnd r
    rw [List.flatMap_cons, List.count_append, count_lookupGroup,
      ih (List.Nodup.of_cons hnd) r]
    by_cases hk : r.speaker = k
    · have hnot : r.speaker ∉ ks := by
        rw [hk]; exact (List.nodup_cons.mp hnd).1
      rw [if_pos hk, if_neg hnot, if_pos (by simp [hk]), Nat.add_zero]
    · by_cases hm : r.speaker ∈ ks
      · rw [if_neg hk, if_pos hm, if_pos (List.mem_cons_of_mem _ hm), Nat.zero_add]
      · have hnc : r.speaker ∉ k :: ks := by simp [hk, hm]
        rw [if_neg hk, if_neg hm, if_neg hnc, Nat.add_zero]

theorem count_flatMap_lookup_keys (d : List Record) (ks : List String) (hnd : ks.Nodup)
    (hks : ∀ r : Record, r ∈ d → r.speaker ∈ ks) (r : Record) :
    (ks.flatMap (lookupGroup (groupBySpeaker d))).count r = d.count r := by
  rw [count_flatMap_lookup d ks hnd r]
  by_cases hm : r.speaker ∈ ks
  · rw [if_pos hm]
  · rw [if_neg hm, Eq.comm, List.count_eq_zero]
    exact fun hmem => hm (hks r hmem)

theorem filter_lookupGroup (d : List Record) (k s : String) :
    (lookupGroup (groupBySpeaker d) k).filter (fun r => r.speaker = s) =
      if k = s then d.filter (fun r => r.speaker = s) else [] := by
  rw [lookupGroup_groupBySpeaker]
  by_cases h : k = s
  · subst h
    rw [if_pos rfl]
    rw [List.filter_filter]
    exact List.filter_congr (fun r _ => by by_cases hr : r.speaker = k <;> simp [hr])
  · rw [if_neg h, List.filter_eq_nil_iff]
    intro r hr hdec
    exact h ((of_decide_eq_true (List.mem_filter.mp hr).2).symm.trans
      (of_decide_eq_true hdec))

theorem filter_flatMap_lookup (d : List Record) :
    ∀ ks : List String, ks.Nodup → ∀ s : String,
      (ks.flatMap (lookupGroup (groupBySpeaker d))).filter (fun r => r.speaker = s) =
        if s ∈ ks then d.filter (fun r => r.speaker = s) else [] := by
  intro ks
  induction ks with
  | nil => intro _ s; simp
  | cons k ks ih =>
    intro hnd s
    rw [List.flatMap_cons, List.filter_append, filter_lookupGroup,
      ih (List.Nodup.of_cons hnd) s]
    by_cases hk : k = s
    · have hnot : s ∉ ks := by
        rw [← hk]; exact (List.nodup_cons.mp hnd).1
      simp [hk, hnot]
    · have hks : ¬ s = k := fun hss => hk hss.symm
      by_cases hm : s ∈ ks
      · simp [hk, hm, List.mem_cons]
      · have : s ∉ k :: ks := by simp [hks, hm]
        simp [hk, hm, this]

theorem speaker_mem_of_mem_flatMap {d : List Record} {ks : List String} {r : Record}
    (h : r ∈ ks.flatMap (lookupGroup (groupBySpeaker d))) : r.speaker ∈ ks := by
  obtain ⟨k, hk, hr⟩ := List.mem_flatMap.mp h
  rw [speaker_of_mem_lookupGroup hr]
  exact hk

/-- Claim C1: for every input record list and every ratio triple summing to 1.0,
whenever the speaker-aware split returns its three lists, (a) no speaker id
appears in more than one of the three output lists, (b) every input record
appears in exactly one output list (counted with multiplicity), and (c) within
each speaker the records keep their original input order: each output list's
subsequence of a given speaker is either the whole input subsequence of that
speaker, unchanged, or empty. -/
theorem split_by_speaker_invariant (sp : DatasetSplitter) (data : List Record)
    (train valid test : List Record)
    (_hratios : sp.train_ratio + sp.valid_ratio + sp.test_ratio = 1)
    (h : sp.split_by_speaker data = .ok (train, valid, test)) :
    (∀ s : String,
      ¬((∃ r ∈ train, r.speaker = s) ∧ (∃ r ∈ valid, r.speaker = s)) ∧
      ¬((∃ r ∈ train, r.speaker = s) ∧ (∃ r ∈ test, r.speaker = s)) ∧
      ¬((∃ r ∈ valid, r.speaker = s) ∧ (∃ r ∈ test, r.speaker = s))) ∧
    (∀ r : Record, train.count r + valid.count r + test.count r = data.count r) ∧
    (∀ s : String,
      (train.filter (fun r => r.speaker = s) = data.filter (fun r => r.speaker = s) ∨
        train.filter (fun r => r.speaker = s) = []) ∧
      (valid.filter (fun r => r.speaker = s) = data.filter (fun r => r.speaker = s) ∨
        valid.filter (fun r => r.speaker = s) = []) ∧
      (test.filter (fun r => r.speaker = s) = data.filter (fun r => r.speaker = s) ∨
        test.filter (fun r => r.speaker = s) = [])) := by
  unfold DatasetSplitter.split_by_speaker at h
  simp only [] at h
  cases h1 : train_test_split sp.random_seed (sp.valid_ratio + sp.test_ratio)
      (groupKeys (groupBySpeaker data)) with
  | error e => rw [h1] at h; exact absurd h (by simp)
  | ok p1 =>
    obtain ⟨ts, temp⟩ := p1
    rw [h1] at h
    simp only [] at h
    cases h2 : train_test_split sp.random_seed
        (sp.test_ratio / (sp.valid_ratio + sp.test_ratio)) temp with
    | error e => rw [h2] at h; exact absurd h (by simp)
    | ok p2 =>
      obtain ⟨vs, ws⟩ := p2
      rw [h2] at h
      simp only [Except.ok.injEq, Prod.mk.injEq] at h
      obtain ⟨htr, hva, hte⟩ := h
      have hperm1 := train_test_split_partition h1
      have hperm2 := train_test_split_partition h2
      -- the three speaker lists together are a permutation of the key list
      have hvw : List.Perm (vs ++ ws) temp := List.perm_append_comm.trans hperm2
      have hS : List.Perm (ts ++ (vs ++ ws)) (groupKeys (groupBySpeaker data)) :=
        (List.Perm.append_left ts hvw).trans (List.perm_append_comm.trans hperm1)
      have hnd : (groupKeys (groupBySpeaker data)).Nodup := groupKeys_nodup data
      have hndS : (ts ++ (vs ++ ws)).Nodup := hS.nodup_iff.mpr hnd
      obtain ⟨hnd_ts, hnd_vw, hdisj1⟩ := List.nodup_append.mp hndS
      obtain ⟨hnd_vs, hnd_ws, hdisj2⟩ := List.nodup_append.mp hnd_vw
      refine ⟨?_, ?_, ?_⟩
      · -- speaker disjointness
        intro s
        have memT : (∃ r ∈ train, r.speaker = s) → s ∈ ts := by
          rintro ⟨r, hr, hsp⟩
          rw [← htr] at hr
          exact hsp ▸ speaker_mem_of_mem_flatMap hr
        have memV : (∃ r ∈ valid, r.speaker = s) → s ∈ vs := by
          rintro ⟨r, hr, hsp⟩
          rw [← hva] at hr
          exact hsp ▸ speaker_mem_of_mem_flatMap hr
        have memW : (∃ r ∈ test, r.speaker = s) → s ∈ ws := by
          rintro ⟨r, hr, hsp⟩
          rw [← hte] at hr
          exact hsp ▸ speaker_mem_of_mem_flatMap hr
        refine ⟨fun ⟨a, b⟩ => ?_, fun ⟨a, b⟩ => ?_, fun ⟨a, b⟩ => ?_⟩
        · exact hdisj1 (memT a) (List.mem_append_left _ (memV b))
        · exact hdisj1 (memT a) (List.mem_append_right _ (memW b))
        · exact hdisj2 (memV a) (memW b)
      · -- every record lands in exactly one split, with multiplicity
        intro r
        have hcount := count_flatMap_lookup_keys data (ts ++ (vs ++ ws)) hndS
          (fun r hr => hS.mem_iff.mpr ((mem_groupKeys data r.speaker).mpr
            (List.mem_map_of_mem Record.speaker hr))) r
        rw [List.flatMap_append, List.flatMap_append, List.count_append,
          List.count_append] at hcount
        rw [← htr, ← hva, ← hte, ← hcount]
        omega
      · -- order within each speaker
        intro s
        refine ⟨?_, ?_, ?_⟩
        · rw [← htr, filter_flatMap_lookup data ts hnd_ts s]
          by_cases hm : s ∈ ts
          · exact Or.inl (by rw [if_pos hm])
          · exact Or.inr (by rw [if_neg hm])
        · rw [← hva, filter_flatMap_lookup data vs hnd_vs s]
          by_cases hm : s ∈ vs
          · exact Or.inl (by rw [if_pos hm])
          · exact Or.inr (by rw [if_neg hm])
        · rw [← hte, filter_flatMap_lookup data ws hnd_ws s]
          by_cases hm : s ∈ ws
          · exact Or.inl (by rw [if_pos hm])
          · exact Or.inr (by rw [if_neg hm])

/-! ## Concrete evaluations of the splitter (used by witnesses and
counterexamples; the Rat operations are `@[irreducible]`, so the rational
steps are evaluated with `norm_num` and `Int.ceil_eq_iff` rather than by
kernel reduction) -/

theorem eval_validate1 : validate_shuffle_split 6 ((1:ℚ)/10 + 1/10) = .ok (4, 2) := by
  have hc : (⌈((1:ℚ)/10 + 1/10) * ((6:ℕ) : ℚ)⌉) = 2 := by
    rw [Int.ceil_eq_iff]
    constructor <;> norm_num
  unfold validate_shuffle_split
  rw [if_neg (by norm_num)]
  simp only [hc]
  rfl

theorem eval_tts1 : train_test_split 42 ((1:ℚ)/10 + 1/10) ["s1","s2","s3","s4","s5","s6"] =
    .ok (["s2","s3","s5","s1"], ["s4","s6"]) := by
  unfold train_test_split
  rw [show (["s1","s2","s3","s4","s5","s6"] : List String).length = 6 from rfl, eval_validate1]
  rfl

theorem eval_validate2 : validate_shuffle_split 2 ((1:ℚ)/10 / ((1:ℚ)/10 + 1/10)) = .ok (1, 1) := by
  have hc : (⌈((1:ℚ)/10 / ((1:ℚ)/10 + 1/10)) * ((2:ℕ) : ℚ)⌉) = 1 := by
    rw [Int.ceil_eq_iff]
    constructor <;> norm_num
  unfold validate_shuffle_split
  rw [if_neg (by norm_num)]
  simp only [hc]
  rfl

theorem eval_tts2 : train_test_split 42 ((1:ℚ)/10 / ((1:ℚ)/10 + 1/10)) ["s4","s6"] =
    .ok (["s4"], ["s6"]) := by
  unfold train_test_split
  rw [show (["s4","s6"] : List String).length = 2 from rfl, eval_validate2]
  rfl

/-- The splitter with ratios (0.8, 0.1, 0.1) and seed 42 on six one-record
speakers: a concrete successful run of split_by_speaker. -/
theorem eval_split_six : DatasetSplitter.split_by_speaker ⟨8/10, 1/10, 1/10, 42⟩ sixRecords =
    .ok ([⟨"p2.wav", "u2", "s2", "bn"⟩, ⟨"p3.wav", "u3", "s3", "bn"⟩,
          ⟨"p5.wav", "u5", "s5", "bn"⟩, ⟨"p1.wav", "u1", "s1", "bn"⟩],
         [⟨"p4.wav", "u4", "s4", "bn"⟩], [⟨"p6.wav", "u6", "s6", "bn"⟩]) := by
  unfold DatasetSplitter.split_by_speaker
  simp only []
  rw [show groupKeys (groupBySpeaker sixRecords) = ["s1","s2","s3","s4","s5","s6"] from rfl]
  rw [eval_tts1]
  simp only []
  rw [eval_tts2]
  rfl

/-- Witness for C1: the hypotheses of split_by_speaker_invariant hold at a
concrete input (ratios 0.8 + 0.1 + 0.1 = 1, and the split succeeds on six
one-record speakers with seed 42), and the exactly-one-list conclusion is
obtained there by applying the theorem. -/
theorem split_by_speaker_invariant_witness :
    ((8:ℚ)/10 + 1/10 + 1/10 = 1) ∧
    (∀ r : Record,
      ([⟨"p2.wav", "u2", "s2", "bn"⟩, ⟨"p3.wav", "u3", "s3", "bn"⟩,
        ⟨"p5.wav", "u5", "s5", "bn"⟩, ⟨"p1.wav", "u1", "s1", "bn"⟩] : List Record).count r +
      ([⟨"p4.wav", "u4", "s4", "bn"⟩] : List Record).count r +
      ([⟨"p6.wav", "u6", "s6", "bn"⟩] : List Record).count r = sixRecords.count r) :=
  ⟨by norm_num,
   (split_by_speaker_invariant ⟨8/10, 1/10, 1/10, 42⟩ sixRecords _ _ _
      (show (8:ℚ)/10 + 1/10 + 1/10 = 1 by norm_num) eval_split_six).2.1⟩

/-! ## Degenerate ratios (1.0, 0, 0): the underlying splitter rejects
test_size 0.0 -/

theorem eval_validate_zero (n : Nat) :
    validate_shuffle_split n ((0:ℚ) + 0) =
      .error "test_size should be either positive and smaller than the number of samples or a float in the (0, 1) range" := by
  unfold validate_shuffle_split
  rw [if_pos (Or.inl (by norm_num))]

theorem tts_error_zero [DecidableEq α] (seed : Nat) (l : List α) :
    train_test_split seed ((0:ℚ) + 0) l =
      .error "test_size should be either positive and smaller than the number of samples or a float in the (0, 1) range" := by
  unfold train_test_split
  rw [eval_validate_zero]

/-- Claim C2 (amended): with ratios (1.0, 0, 0) the splitter construction
succeeds (the ratios sum to 1), but split_by_speaker always raises: the first
train_test_split call receives test_size = 0.0 + 0.0, which sklearn rejects
as out of the (0, 1) range, so no records are assigned to any split. -/
theorem split_by_speaker_ratios_one_zero_zero (seed : Nat) (data : List Record) :
    DatasetSplitter.make 1 0 0 seed = .ok ⟨1, 0, 0, seed⟩ ∧
    DatasetSplitter.split_by_speaker ⟨1, 0, 0, seed⟩ data =
      .error "test_size should be either positive and smaller than the number of samples or a float in the (0, 1) range" := by
  constructor
  · unfold DatasetSplitter.make
    rw [if_pos (by norm_num)]
  · unfold DatasetSplitter.split_by_speaker
    simp only []
    rw [tts_error_zero]

/-- Counterexample to claim C2 as stated: on the 3-record manifest (2 records
from speaker A, 1 from speaker B) with ratios (1.0, 0, 0), split_by_speaker
does raise (an sklearn ValueError, modelled as Except.error) instead of
returning all 3 records in train with empty valid and test. -/
theorem split_ratio_one_counterexample :
    DatasetSplitter.split_by_speaker ⟨1, 0, 0, 42⟩ [recA1, recA2, recB] =
      .error "test_size should be either positive and smaller than the number of samples or a float in the (0, 1) range" ∧
    DatasetSplitter.split_by_speaker ⟨1, 0, 0, 42⟩ [recA1, recA2, recB] ≠
      .ok ([recA1, recA2, recB], [], []) := by
  have h : DatasetSplitter.split_by_speaker ⟨1, 0, 0, 42⟩ [recA1, recA2, recB] =
      .error "test_size should be either positive and smaller than the number of samples or a float in the (0, 1) range" := by
    unfold DatasetSplitter.split_by_speaker
    simp only []
    rw [tts_error_zero]
  exact ⟨h, by rw [h]; simp⟩

/-- Claim C6: constructing the splitter with ratios whose sum differs from 1.0
by more than 1e-6 raises immediately (the assert fires before anything is
stored or partitioned); with the sum within tolerance, construction succeeds
and only stores the ratios and seed. -/
theorem make_ratio_tolerance (tr vr te : ℚ) (seed : Nat) :
    (1 / 1000000 < |tr + vr + te - 1| →
      DatasetSplitter.make tr vr te seed = .error "Ratios must sum to 1.0") ∧
    (|tr + vr + te - 1| < 1 / 1000000 →
      DatasetSplitter.make tr vr te seed = .ok ⟨tr, vr, te, seed⟩) := by
  constructor
  · intro h
    unfold DatasetSplitter.make
    rw [if_neg (not_lt.mpr (le_of_lt h))]
  · intro h
    unfold DatasetSplitter.make
    rw [if_pos h]

/-- Witness for C6: ratios (0.5, 0.3, 0.2) are within tolerance and the
construction succeeds; ratios (0.5, 0.5, 0.5) are off by 0.5 > 1e-6 and the
construction errors. -/
theorem make_ratio_tolerance_witness :
    (|(1:ℚ)/2 + 3/10 + 1/5 - 1| < 1/1000000 ∧
      DatasetSplitter.make (1/2) (3/10) (1/5) 42 = .ok ⟨1/2, 3/10, 1/5, 42⟩) ∧
    ((1:ℚ)/1000000 < |(1:ℚ)/2 + 1/2 + 1/2 - 1| ∧
      DatasetSplitter.make (1/2) (1/2) (1/2) 42 = .error "Ratios must sum to 1.0") :=
  ⟨⟨by norm_num, (make_ratio_tolerance (1/2) (3/10) (1/5) 42).2 (by norm_num)⟩,
   ⟨by norm_num [abs_of_pos],
    (make_ratio_tolerance (1/2) (1/2) (1/2) 42).1 (by norm_num [abs_of_pos])⟩⟩

/-- Claim C3 evaluation: on a signal of one sample 1.0 and a zero-power noise
buffer [0.0] (any positive snr factor; here snr_linear = 2), the IEEE-style
model of add_background_noise returns a buffer of NaN — `Except.ok [NF.nan]`
— instead of reporting an error: 0/0-free path divides signal power by the
zero noise power (giving +inf), takes sqrt (+inf), multiplies by the zero
noise samples (NaN), and NaN then propagates through the addition and the
final peak normalization into the returned buffer. -/
theorem add_background_noise_zero_power_returns_nan :
    add_background_noise_NF [NF.fin 1] [NF.fin 0] (NF.fin 2) = .ok [NF.nan] := by
  norm_num [add_background_noise_NF, tileTrimList, NF.meanSqNF, NF.meanNF, NF.sum,
    NF.div, NF.mul, NF.add, NF.sqrt, NF.abs, NF.npMaxNF, NF.maxOp]

/-- Claim C10 (amended): for a train split of fewer than 100 records the
duration estimate equals the true summed train duration times len(train)/100 —
a strict undercount whenever the train split is non-empty, smaller than 100,
and has positive total duration (an all-zero-duration split makes estimate and
truth both 0) — and the valid/test durations never contribute to it. -/
theorem estimated_duration_truncated (td vd sd : List ℚ) (h : td.length < 100) :
    estimated_total_duration td vd sd = td.sum * ((td.length : ℚ) / 100) ∧
    (0 < td.sum → estimated_total_duration td vd sd < td.sum) ∧
    (∀ vd' sd', estimated_total_duration td vd' sd' = estimated_total_duration td vd sd) := by
  have htake : td.take 100 = td := List.take_of_length_le (by omega)
  refine ⟨by rw [estimated_total_duration, htake], ?_, fun _ _ => rfl⟩
  intro hs
  rw [estimated_total_duration, htake]
  have hlt : ((td.length : ℚ) / 100) < 1 := by
    rw [div_lt_one (by norm_num)]
    exact_mod_cast h
  exact mul_lt_of_lt_one_right hs hlt

/-- Counterexample to C10 as stated: a non-empty train split smaller than 100
records whose single record has duration 0 — the estimate equals the true sum
(both are 0), so the claimed strict undercount fails there. -/
theorem estimated_duration_counterexample :
    (([(0:ℚ)] : List ℚ) ≠ []) ∧ ([(0:ℚ)] : List ℚ).length < 100 ∧
    ¬ (estimated_total_duration [0] [] [] < ([(0:ℚ)] : List ℚ).sum) := by
  refine ⟨by simp, by simp, ?_⟩
  rw [estimated_total_duration]
  norm_num

/-- Witness for C10: a 2-record train split of durations 2 and 3 (valid and
test durations 7 and 9 present but ignored) has estimate 5·(2/100) < 5. -/
theorem estimated_duration_truncated_witness :
    ([(2:ℚ), 3] : List ℚ).length < 100 ∧ (0:ℚ) < ([(2:ℚ), 3] : List ℚ).sum ∧
    estimated_total_duration [2, 3] [7] [9] < ([(2:ℚ), 3] : List ℚ).sum :=
  ⟨by simp, by norm_num,
   (estimated_duration_truncated [2, 3] [7] [9] (by simp)).2.1 (by norm_num)⟩

/-- Claim C5 evaluation: the augmentation sample-selection step at a concrete
input — identical record list, identical augment_ratio, and the fixed seed 42
that augment_dataset bakes into AudioAugmenter — still depends on the state of
the process-global random-module generator (modelled states 0 and 1), because
`random.sample` is never connected to that seed: two runs select different
subsets.  (The splitter half of the claim holds: split_by_speaker is a pure
function of its seed and inputs in this model.) -/
theorem samples_to_augment_global_state_dependent :
    samples_to_augment 0 [recA1, recB] (1/2) = [recA1] ∧
    samples_to_augment 1 [recA1, recB] (1/2) = [recB] ∧
    samples_to_augment 0 [recA1, recB] (1/2) ≠ samples_to_augment 1 [recA1, recB] (1/2) := by
  have hnum : ((⌊(([recA1, recB] : List Record).length : ℚ) * (1/2)⌋)).toNat = 1 := by
    norm_num
  have h0 : samples_to_augment 0 [recA1, recB] (1/2) = [recA1] := by
    unfold samples_to_augment
    simp only [hnum]
    rfl
  have h1 : samples_to_augment 1 [recA1, recB] (1/2) = [recB] := by
    unfold samples_to_augment
    simp only [hnum]
    rfl
  refine ⟨h0, h1, ?_⟩
  rw [h0, h1]
  simp [recA1, recB]

/-- Claim C8: the augmentation planner produces exactly 1 original variant
plus 2 variants per requested technique, tagged from the fixed catalogue
(speed 0.9/1.1, white-noise 0.003/0.007, gain -3/+3 dB); techniques absent
from the request contribute no variants, and requesting speed and noise
yields exactly the 5 files original, speed_0.9, speed_1.1, noise_0.003,
noise_0.007. -/
theorem augment_audio_catalogue (base : String) (techniques : List String) :
    ((augment_audio_files base techniques).length =
      1 + (if "speed" ∈ techniques then 2 else 0) + (if "noise" ∈ techniques then 2 else 0)
        + (if "volume" ∈ techniques then 2 else 0)) ∧
    ((augment_audio_files base techniques).map Prod.snd).count "original" = 1 ∧
    (((augment_audio_files base techniques).map Prod.snd).count "speed_0.9" =
      if "speed" ∈ techniques then 1 else 0) ∧
    (((augment_audio_files base techniques).map Prod.snd).count "speed_1.1" =
      if "speed" ∈ techniques then 1 else 0) ∧
    (((augment_audio_files base techniques).map Prod.snd).count "noise_0.003" =
      if "noise" ∈ techniques then 1 else 0) ∧
    (((augment_audio_files base techniques).map Prod.snd).count "noise_0.007" =
      if "noise" ∈ techniques then 1 else 0) ∧
    (((augment_audio_files base techniques).map Prod.snd).count "volume_-3db" =
      if "volume" ∈ techniques then 1 else 0) ∧
    (((augment_audio_files base techniques).map Prod.snd).count "volume_3db" =
      if "volume" ∈ techniques then 1 else 0) ∧
    ((augment_audio_files base ["speed", "noise"]).map Prod.snd =
      ["original", "speed_0.9", "speed_1.1", "noise_0.003", "noise_0.007"]) := by
  by_cases h1 : "speed" ∈ techniques <;> by_cases h2 : "noise" ∈ techniques <;>
    by_cases h3 : "volume" ∈ techniques <;>
      simp [augment_audio_files, h1, h2, h3, List.count_cons, List.count_append,
        List.count_nil]

/-! ## Peak lemmas for the numpy max reduction -/

theorem le_foldl_max_init [LinearOrder α] (xs : List α) : ∀ x : α, x ≤ xs.foldl max x := by
  induction xs with
  | nil => simp
  | cons a xs ih =>
    intro x
    rw [List.foldl_cons]
    exact le_trans (le_max_left x a) (ih _)

theorem mem_le_foldl_max [LinearOrder α] (xs : List α) :
    ∀ (x y : α), y ∈ xs → y ≤ xs.foldl max x := by
  induction xs with
  | nil => simp
  | cons a xs ih =>
    intro x y h
    rw [List.foldl_cons]
    rcases List.mem_cons.mp h with h1 | h1
    · subst h1
      exact le_trans (le_max_right x y) (le_foldl_max_init xs _)
    · exact ih _ _ h1

theorem foldl_max_mem [LinearOrder α] (xs : List α) :
    ∀ x : α, xs.foldl max x ∈ x :: xs := by
  induction xs with
  | nil => simp
  | cons a xs ih =>
    intro x
    rw [List.foldl_cons]
    rcases List.mem_cons.mp (ih (max x a)) with h | h
    · rcases max_choice x a with hm | hm <;> rw [h, hm]
      · exact List.mem_cons_self _ _
      · exact List.mem_cons_of_mem _ (List.mem_cons_self _ _)
    · exact List.mem_cons_of_mem _ (List.mem_cons_of_mem _ h)

theorem foldl_max_map_mul_right [LinearOrderedField α] (xs : List α) (c : α) (hc : 0 ≤ c) :
    ∀ x : α, (xs.map (fun a => a * c)).foldl max (x * c) = xs.foldl max x * c := by
  induction xs with
  | nil => simp
  | cons a xs ih =>
    intro x
    rw [List.map_cons, List.foldl_cons, List.foldl_cons, ← ih (max x a),
      max_mul_of_nonneg _ _ hc]

theorem npMax_abs_eq_peakAbs [LinearOrderedField α] (x : α) (xs : List α) :
    npMax ((x :: xs).map (fun a => |a|)) = .ok (peakAbs (x :: xs)) := rfl

theorem peakAbs_nonneg [LinearOrderedField α] (l : List α) : 0 ≤ peakAbs l := by
  cases l with
  | nil => exact le_refl 0
  | cons x xs =>
    exact le_trans (abs_nonneg x) (le_foldl_max_init _ _)

theorem abs_le_peakAbs [LinearOrderedField α] {l : List α} {y : α} (h : y ∈ l) :
    |y| ≤ peakAbs l := by
  cases l with
  | nil => cases h
  | cons x xs =>
    rcases List.mem_cons.mp h with h1 | h1
    · subst h1
      exact le_foldl_max_init _ _
    · exact mem_le_foldl_max _ _ _ (List.mem_map_of_mem _ h1)

theorem peakAbs_map_mul [LinearOrderedField α] (l : List α) (c : α) (hc : 0 ≤ c) :
    peakAbs (l.map (fun x => x * c)) = peakAbs l * c := by
  cases l with
  | nil => simp [peakAbs]
  | cons x xs =>
    show ((xs.map (fun x => x * c)).map (fun a => |a|)).foldl max |x * c| =
      (xs.map (fun a => |a|)).foldl max |x| * c
    have hmaps : (xs.map (fun x => x * c)).map (fun a => |a|) =
        (xs.map (fun a => |a|)).map (fun a => a * c) := by
      rw [List.map_map, List.map_map]
      exact List.map_congr_left (fun a _ => by
        simp [Function.comp, abs_mul, abs_of_nonneg hc])
    rw [hmaps, show |x * c| = |x| * c by rw [abs_mul, abs_of_nonneg hc],
      foldl_max_map_mul_right _ _ hc]

theorem peakAbs_eq_zero_of_all_zero [LinearOrderedField α] {l : List α}
    (h : ∀ x ∈ l, x = 0) : peakAbs l = 0 := by
  cases l with
  | nil => rfl
  | cons x xs =>
    have hmem := foldl_max_mem (xs.map (fun a => |a|)) |x|
    rcases List.mem_cons.mp hmem with h1 | h1
    · rw [show peakAbs (x :: xs) = (xs.map (fun a => |a|)).foldl max |x| from rfl, h1,
        h x (List.mem_cons_self _ _), abs_zero]
    · obtain ⟨a, ha, hax⟩ := List.mem_map.mp h1
      rw [show peakAbs (x :: xs) = (xs.map (fun a => |a|)).foldl max |x| from rfl, ← hax,
        h a (List.mem_cons_of_mem _ ha), abs_zero]

/-- Claim C7: for every non-empty buffer with nonzero peak, normalize_audio
scales every sample by target/peak, and the result's peak equals the target
level 0.95 = 19/20 exactly (exact rationals stand in for floats, so the
"within floating tolerance" clause becomes equality); a non-empty all-zero
buffer is returned unchanged — the positive-peak guard prevents any division
by zero. -/
theorem normalize_audio_peak (audio : List ℚ) (h : audio ≠ []) :
    (peakAbs audio ≠ 0 →
      normalize_audio audio (19/20) =
        .ok (audio.map (fun x => x * ((19/20) / peakAbs audio))) ∧
      peakAbs (audio.map (fun x => x * ((19/20) / peakAbs audio))) = 19/20) ∧
    ((∀ x ∈ audio, x = 0) → normalize_audio audio (19/20) = .ok audio) := by
  obtain ⟨x, xs, rfl⟩ := List.exists_cons_of_ne_nil h
  constructor
  · intro hpk
    have hpos : 0 < peakAbs (x :: xs) :=
      lt_of_le_of_ne (peakAbs_nonneg _) (Ne.symm hpk)
    constructor
    · unfold normalize_audio
      rw [npMax_abs_eq_peakAbs]
      simp only []
      rw [if_pos hpos]
    · rw [peakAbs_map_mul _ _ (le_of_lt (div_pos (by norm_num) hpos))]
      rw [mul_comm, div_mul_cancel₀ _ hpk]
  · intro hz
    have hpk : peakAbs (x :: xs) = 0 := peakAbs_eq_zero_of_all_zero hz
    unfold normalize_audio
    rw [npMax_abs_eq_peakAbs]
    simp only []
    rw [if_neg (by rw [hpk]; exact lt_irrefl 0)]

/-- Witness for C7: the buffer [2, 1] has nonzero peak and normalizes to peak
19/20; the silent buffer [0, 0] passes through unchanged. -/
theorem normalize_audio_peak_witness :
    (([(2:ℚ), 1] : List ℚ) ≠ [] ∧ peakAbs ([(2:ℚ), 1]) ≠ 0 ∧
      peakAbs (([(2:ℚ), 1]).map (fun x => x * ((19/20) / peakAbs ([(2:ℚ), 1])))) = 19/20) ∧
    (([(0:ℚ), 0] : List ℚ) ≠ [] ∧
      normalize_audio ([(0:ℚ), 0] : List ℚ) (19/20) = .ok ([(0:ℚ), 0] : List ℚ)) := by
  have hpk : peakAbs ([(2:ℚ), 1]) ≠ 0 := by
    show max |(2:ℚ)| |(1:ℚ)| ≠ 0
    rw [abs_two, abs_one]
    norm_num
  exact ⟨⟨by simp, hpk, ((normalize_audio_peak [2, 1] (by simp)).1 hpk).2⟩,
    ⟨by simp, (normalize_audio_peak [0, 0] (by simp)).2 (by simp)⟩⟩

/-- Claim C9: volume_perturbation multiplies every sample by 10^(gain_db/20)
(the list `scaled`); if and only if the scaled peak exceeds 1.0 the result is
re-peak-normalized — and then its peak equals 0.95 = 19/20 exactly —
otherwise the scaled samples are returned untouched, so quieter gains are
never renormalized. -/
theorem volume_perturbation_gain (audio : List ℝ) (gain_db : ℝ) (h : audio ≠ [])
    (scaled : List ℝ) (hs : scaled = audio.map (fun x => x * (10:ℝ) ^ (gain_db / 20))) :
    (1 < peakAbs scaled →
      volume_perturbation audio gain_db =
        .ok (scaled.map (fun x => x / peakAbs scaled * (19/20))) ∧
      peakAbs (scaled.map (fun x => x / peakAbs scaled * (19/20))) = 19/20) ∧
    (¬ 1 < peakAbs scaled → volume_perturbation audio gain_db = .ok scaled) := by
  obtain ⟨x, xs, rfl⟩ := List.exists_cons_of_ne_nil h
  subst hs
  rw [List.map_cons]
  constructor
  · intro hgt
    have hpos : (0:ℝ) < peakAbs ((x * (10:ℝ) ^ (gain_db / 20)) ::
        xs.map (fun x => x * (10:ℝ) ^ (gain_db / 20))) := lt_trans zero_lt_one hgt
    constructor
    · unfold volume_perturbation
      simp only []
      rw [List.map_cons, npMax_abs_eq_peakAbs]
      simp only []
      rw [if_pos hgt]
    · rw [show ((x * (10:ℝ) ^ (gain_db / 20)) ::
          xs.map (fun x => x * (10:ℝ) ^ (gain_db / 20))).map
            (fun a => a / peakAbs ((x * (10:ℝ) ^ (gain_db / 20)) ::
              xs.map (fun x => x * (10:ℝ) ^ (gain_db / 20))) * (19/20)) =
          ((x * (10:ℝ) ^ (gain_db / 20)) ::
          xs.map (fun x => x * (10:ℝ) ^ (gain_db / 20))).map
            (fun a => a * ((19/20) / peakAbs ((x * (10:ℝ) ^ (gain_db / 20)) ::
              xs.map (fun x => x * (10:ℝ) ^ (gain_db / 20))))) from
          List.map_congr_left (fun a _ => by rw [div_mul_eq_mul_div, mul_div_assoc])]
      rw [peakAbs_map_mul _ _ (le_of_lt (div_pos (by norm_num) hpos))]
      rw [mul_comm, div_mul_cancel₀ _ (ne_of_gt hpos)]
  · intro hle
    unfold volume_perturbation
    simp only []
    rw [List.map_cons, npMax_abs_eq_peakAbs]
    simp only []
    rw [if_neg hle]

/-- Witness for C9: the one-sample buffer [2] at gain 0 dB scales to peak 2,
which exceeds 1, and the renormalized result has peak exactly 19/20. -/
theorem volume_perturbation_gain_witness :
    (([(2:ℝ)] : List ℝ) ≠ []) ∧
    (1 < peakAbs (([(2:ℝ)] : List ℝ).map (fun x => x * (10:ℝ) ^ ((0:ℝ) / 20)))) ∧
    peakAbs ((([(2:ℝ)] : List ℝ).map (fun x => x * (10:ℝ) ^ ((0:ℝ) / 20))).map
      (fun x => x / peakAbs (([(2:ℝ)] : List ℝ).map (fun x => x * (10:ℝ) ^ ((0:ℝ) / 20)))
        * (19/20))) = 19/20 := by
  have hgt : 1 < peakAbs (([(2:ℝ)] : List ℝ).map (fun x => x * (10:ℝ) ^ ((0:ℝ) / 20))) := by
    show (1:ℝ) < |2 * (10:ℝ) ^ ((0:ℝ) / 20)|
    rw [zero_div, Real.rpow_zero, mul_one, abs_two]
    norm_num
  exact ⟨by simp, hgt, ((volume_perturbation_gain [2] 0 (by simp) _ rfl).1 hgt).2⟩

/-! ## Tiling, power and SNR lemmas for add_background_noise -/

theorem flatten_replicate_getElem? (noise : List α) :
    ∀ (k i : Nat), i < k * noise.length →
      (List.flatten (List.replicate k noise))[i]? = noise[i % noise.length]? := by
  intro k
  induction k with
  | zero => intro i hi; simp at hi
  | succ k ih =>
    intro i hi
    rw [List.replicate_succ, List.flatten_cons]
    by_cases hlt : i < noise.length
    · rw [List.getElem?_append_left hlt, Nat.mod_eq_of_lt hlt]
    · push_neg at hlt
      rw [List.getElem?_append_right hlt]
      have hmod : (i - noise.length) % noise.length = i % noise.length := by
        calc (i - noise.length) % noise.length
            = ((i - noise.length) + noise.length) % noise.length :=
              (Nat.add_mod_right _ _).symm
          _ = i % noise.length := by rw [Nat.sub_add_cancel hlt]
      rw [← hmod]
      refine ih (i - noise.length) ?_
      rw [Nat.succ_mul] at hi
      omega

/-- Repeat-then-trim yields exactly `target` samples. -/
theorem tileTrimList_length (target : Nat) (noise : List α) (hne : noise ≠ []) :
    (tileTrimList target noise).length = target := by
  have hn : 0 < noise.length := List.length_pos.mpr hne
  unfold tileTrimList
  by_cases hlt : noise.length < target
  · rw [if_pos hlt, List.length_take]
    have hfl : target ≤
        (List.flatten (List.replicate ((target + noise.length - 1) / noise.length)
          noise)).length := by
      rw [List.length_flatten, List.map_replicate, List.sum_replicate, smul_eq_mul]
      have hdm := Nat.div_add_mod (target + noise.length - 1) noise.length
      have hmlt := Nat.mod_lt (target + noise.length - 1) hn
      have hc : noise.length * ((target + noise.length - 1) / noise.length) =
          ((target + noise.length - 1) / noise.length) * noise.length := Nat.mul_comm _ _
      omega
    omega
  · rw [if_neg hlt, List.length_take]
    omega

/-- Repeat-then-trim reads the noise cyclically: sample `i` of the tiled
noise is sample `i mod len(noise)` of the original noise — whole repetitions
followed by truncation, never stretching. -/
theorem tileTrimList_getElem? (target : Nat) (noise : List α) (hne : noise ≠ [])
    (i : Nat) (hi : i < target) :
    (tileTrimList target noise)[i]? = noise[i % noise.length]? := by
  have hn : 0 < noise.length := List.length_pos.mpr hne
  unfold tileTrimList
  by_cases hlt : noise.length < target
  · rw [if_pos hlt, List.getElem?_take_of_lt hi]
    refine flatten_replicate_getElem? noise _ i ?_
    have hdm := Nat.div_add_mod (target + noise.length - 1) noise.length
    have hmlt := Nat.mod_lt (target + noise.length - 1) hn
    have hc : noise.length * ((target + noise.length - 1) / noise.length) =
        ((target + noise.length - 1) / noise.length) * noise.length := Nat.mul_comm _ _
    omega
  · push_neg at hlt
    rw [if_neg (not_lt.mpr hlt), List.getElem?_take_of_lt hi,
      Nat.mod_eq_of_lt (lt_of_lt_of_le hi hlt)]

theorem meanSq_nonneg (l : List ℝ) : 0 ≤ meanSq l := by
  unfold meanSq mean
  refine div_nonneg (List.sum_nonneg ?_) (Nat.cast_nonneg _)
  intro x hx
  obtain ⟨a, _, rfl⟩ := List.mem_map.mp hx
  exact mul_self_nonneg a

theorem meanSq_map_mul_left (c : ℝ) (l : List ℝ) :
    meanSq (l.map (fun x => c * x)) = c ^ 2 * meanSq l := by
  unfold meanSq mean
  simp only [List.length_map]
  have hsum : ((l.map (fun x => c * x)).map (fun x => x * x)).sum
      = c ^ 2 * (l.map (fun x => x * x)).sum := by
    rw [List.map_map, ← List.sum_map_mul_left]
    refine congrArg List.sum (List.map_congr_left fun x _ => ?_)
    simp only [Function.comp]
    ring
  rw [hsum, mul_div_assoc]

/-- The scaling factor achieves the requested SNR whenever the (tiled) noise
power is nonzero: the scaled noise power times the linear SNR factor equals
the signal power. -/
theorem add_background_noise_snr_identity (audio noise_t : List ℝ) (snr_db : ℝ)
    (hnp : meanSq noise_t ≠ 0) :
    (10:ℝ) ^ (snr_db / 10) *
      meanSq (noise_t.map (fun x => noiseScaleOf audio noise_t snr_db * x)) =
      meanSq audio := by
  have hlin : (0:ℝ) < (10:ℝ) ^ (snr_db / 10) := Real.rpow_pos_of_pos (by norm_num) _
  rw [meanSq_map_mul_left, noiseScaleOf,
    Real.sq_sqrt (div_nonneg (meanSq_nonneg _)
      (mul_nonneg (meanSq_nonneg _) (le_of_lt hlin)))]
  field_simp
  ring

/-- Claim C4 (amended): for every signal buffer and non-empty noise buffer
whose tiled-and-truncated copy has nonzero power, add_background_noise (1)
tiles the noise by whole repetitions and truncates to exactly len(buffer)
samples — the tiled noise reads the original cyclically, never stretched; (2)
scales it by sqrt(signalPower / (noisePower · 10^(snrDb/10))) where
noisePower is the mean square of the tiled-truncated noise (not of the
original noise argument), realizing exactly the requested pre-normalization
SNR; and (3) returns the peak-renormalization toward 0.95 of signal + scaled
noise. -/
theorem add_background_noise_spec (audio noise : List ℝ) (snr_db : ℝ)
    (noise_t scaled mixture : List ℝ)
    (hne : noise ≠ [])
    (hnt : noise_t = tileTrimList audio.length noise)
    (hnp : meanSq noise_t ≠ 0)
    (hsc : scaled = noise_t.map (fun x => noiseScaleOf audio noise_t snr_db * x))
    (hmx : mixture = List.zipWith (· + ·) audio scaled) :
    noise_t.length = audio.length ∧
    (∀ i, i < audio.length → noise_t[i]? = noise[i % noise.length]?) ∧
    (10:ℝ) ^ (snr_db / 10) * meanSq scaled = meanSq audio ∧
    add_background_noise audio noise snr_db =
      .ok (mixture.map (fun x => x / peakAbs mixture * (19/20))) := by
  subst hnt hsc hmx
  have haud : audio ≠ [] := by
    intro hnil
    rw [hnil] at hnp
    simp [tileTrimList, meanSq, mean] at hnp
  refine ⟨tileTrimList_length _ _ hne, fun i hi => tileTrimList_getElem? _ _ hne i hi,
    add_background_noise_snr_identity audio _ snr_db hnp, ?_⟩
  obtain ⟨a, as, rfl⟩ := List.exists_cons_of_ne_nil haud
  have hnt_ne : tileTrimList (a :: as).length noise ≠ [] := by
    intro hnil
    rw [hnil] at hnp
    simp [meanSq, mean] at hnp
  obtain ⟨y, ys, hys⟩ := List.exists_cons_of_ne_nil hnt_ne
  unfold add_background_noise
  rw [if_neg (by simp [hne])]
  simp only []
  rw [hys, List.map_cons, List.zipWith_cons_cons, npMax_abs_eq_peakAbs]

/-- Witness for C4: signal [1, 0] with noise [2] at 15 dB — the noise tiles
to [2, 2] (nonzero power) and the SNR identity holds there by the theorem. -/
theorem add_background_noise_spec_witness :
    (([(2:ℝ)] : List ℝ) ≠ []) ∧
    meanSq ([(2:ℝ), 2] : List ℝ) ≠ 0 ∧
    (([(2:ℝ), 2] : List ℝ) = tileTrimList ([(1:ℝ), 0] : List ℝ).length [(2:ℝ)]) ∧
    ((10:ℝ) ^ ((15:ℝ) / 10) *
      meanSq (([(2:ℝ), 2] : List ℝ).map (fun x => noiseScaleOf [(1:ℝ), 0] [(2:ℝ), 2] 15 * x)) =
      meanSq ([(1:ℝ), 0] : List ℝ)) := by
  have hnt : ([(2:ℝ), 2] : List ℝ) = tileTrimList ([(1:ℝ), 0] : List ℝ).length [(2:ℝ)] := rfl
  have hnp : meanSq ([(2:ℝ), 2] : List ℝ) ≠ 0 := by norm_num [meanSq, mean]
  exact ⟨by simp, hnp, hnt,
    (add_background_noise_spec [1, 0] [2] 15 [2, 2] _ _ (by simp) hnt hnp rfl rfl).2.2.1⟩

/-- Counterexample to C4 as stated: noise [0, 0, 1] is non-empty and has
nonzero power 1/3, but against the 2-sample signal [1, 1] the code truncates
it to [0, 0], whose power is zero — the scale degenerates and the realized
SNR is not the requested 15 dB (the left side is 0, the signal power 1). -/
theorem add_background_noise_snr_counterexample :
    (([(0:ℝ), 0, 1] : List ℝ) ≠ []) ∧ meanSq ([(0:ℝ), 0, 1] : List ℝ) ≠ 0 ∧
    tileTrimList ([(1:ℝ), 1] : List ℝ).length [(0:ℝ), 0, 1] = [(0:ℝ), 0] ∧
    ¬ ((10:ℝ) ^ ((15:ℝ) / 10) *
        meanSq (([(0:ℝ), 0] : List ℝ).map
          (fun x => noiseScaleOf [(1:ℝ), 1] [(0:ℝ), 0] 15 * x)) =
        meanSq ([(1:ℝ), 1] : List ℝ)) := by
  refine ⟨by simp, by norm_num [meanSq, mean], rfl, ?_⟩
  have hscale : noiseScaleOf [(1:ℝ), 1] [(0:ℝ), 0] 15 = 0 := by
    unfold noiseScaleOf
    rw [show meanSq ([(0:ℝ), 0] : List ℝ) = 0 by norm_num [meanSq, mean]]
    rw [zero_mul, div_zero, Real.sqrt_zero]
  rw [hscale]
  norm_num [meanSq, mean]

end BengaliASR
